import Mathlib

/-!
Verification of the transcript-chunking / record-validation tool
(`split.py` and `verify.py`) against its natural-language specification.

The Python sources are shallowly embedded below:

* strings are `List Char` / `String` (Python `len` is the number of code
  points, which matches `List.length` on `.data`);
* Python `int` is `Int`;
* decoded YAML values (the result of `yaml.safe_load`) are the inductive
  type `Val`; Python `None` is `Val.none`, which is also what `dict.get`
  returns for an absent key, exactly as in Python;
* fallible Python code (functions that can `raise`) returns `Except String`;
* the filesystem touched by `write_memory_yaml` is an association list
  from path to file contents.
-/

set_option maxHeartbeats 1000000

namespace MemOrg

/-- Python whitespace predicate: the characters stripped by `str.strip()`
and matched by the regex class `\s` on `str` patterns.  We list the ASCII
whitespace control characters together with the common Unicode whitespace
code points recognised by CPython. -/
def pySpaceChars : List Char :=
  [' ', '\t', '\n', '\r', '\x0b', '\x0c', '\x1c', '\x1d', '\x1e', '\x1f', '\x85', '\xa0',
   '\u1680', '\u2000', '\u2001', '\u2002', '\u2003', '\u2004', '\u2005', '\u2006', '\u2007',
   '\u2008', '\u2009', '\u200a', '\u2028', '\u2029', '\u202f', '\u205f', '\u3000']

/-- Python whitespace test: true on the characters of `pySpaceChars`. -/
def isPySpace (c : Char) : Bool := pySpaceChars.contains c

/-- Line boundary characters of Python `str.splitlines` (besides the pair
`"\r\n"`, which is treated as a single boundary). -/
def isLineBreak (c : Char) : Bool :=
  c == '\n' || c == '\r' || c == '\x0b' || c == '\x0c' ||
  c == '\x1c' || c == '\x1d' || c == '\x1e' || c == '\x85' || c == ' ' || c == ' '

/-- Python `str.strip()` on a list of characters. -/
def pyStrip (l : List Char) : List Char :=
  ((l.dropWhile isPySpace).reverse.dropWhile isPySpace).reverse

/-- Worker for `splitlines`: `acc` holds the current (reversed) line. -/
def splitlinesGo : List Char → List Char → List (List Char)
  | [], acc => if acc = [] then [] else [acc.reverse]
  | '\r' :: '\n' :: rest, acc => acc.reverse :: splitlinesGo rest []
  | c :: rest, acc =>
    if isLineBreak c then acc.reverse :: splitlinesGo rest []
    else splitlinesGo rest (c :: acc)

/-- Python `str.splitlines()`: split at line boundaries, no trailing empty
line for input ending in a boundary, empty input gives no lines. -/
def splitlines (cs : List Char) : List (List Char) :=
  splitlinesGo cs []

/-- Index of the first `':'` in a character list, if any. -/
def colonIdx : List Char → Option Nat
  | [] => none
  | c :: cs => if c = ':' then some 0 else (colonIdx cs).map (· + 1)

/-- Tail of the `MSG_START_RE` match, the part `\s*(.+?):\s*(.*)$` applied
to the characters `r` that follow the literal `]`.  `ts` is the already
captured group 1 (the timestamp).  Backtracking of the Python engine on
this sub-pattern resolves deterministically:

* the greedy `\s*` first takes the maximal whitespace run, of length `k0`;
* the lazy `(.+?)` then ends at the first `':'` at index at least `k0 + 1`;
* if there is no such `':'` but `r` has a `':'` right at index `k0` and
  `k0 ≥ 1`, the engine gives one whitespace character back to `(.+?)`
  (smaller give-backs cannot help: the characters before index `k0` are
  whitespace, hence not `':'`);
* the final `\s*` is greedy and `(.*)$` always accepts the rest.

Returns `(group 1, group 2, group 3)` = (timestamp, speaker, inline tail).
Lines produced by `splitlines` contain no newline, so the fact that `.`
does not match a newline never shows. -/
def matchTail (ts : List Char) (r : List Char) : Option (List Char × List Char × List Char) :=
  let k0 := (r.takeWhile isPySpace).length
  match colonIdx (r.drop (k0 + 1)) with
  | some j =>
    some (ts, (r.drop k0).take (j + 1), (r.drop (k0 + 1 + j + 1)).dropWhile isPySpace)
  | none =>
    if 1 ≤ k0 ∧ r.get? k0 = some ':' then
      some (ts, (r.drop (k0 - 1)).take 1, (r.drop (k0 + 1)).dropWhile isPySpace)
    else none

/-- `MSG_START_RE.match(line)` with its three capture groups, for the
pattern

  `^\[(20\d{2}-\d{2}-\d{2}\s+\d{2}:\d{2}:\d{2})\]\s*(.+?):\s*(.*)$`.

The date/time part is rigid: after the literal prefix the greedy `\s+`
must take the maximal whitespace run (the following `\d` cannot match
whitespace), and every other element is fixed width.  `Char.isDigit`
restricts `\d` to ASCII digits. -/
def msgStartMatch (line : List Char) : Option (List Char × List Char × List Char) :=
  match line with
  | '[' :: '2' :: '0' :: y3 :: y4 :: '-' :: mo1 :: mo2 :: '-' :: d1 :: d2 :: rest =>
    if y3.isDigit && y4.isDigit && mo1.isDigit && mo2.isDigit && d1.isDigit && d2.isDigit then
      match rest.dropWhile isPySpace with
      | h1 :: h2 :: ':' :: mi1 :: mi2 :: ':' :: s1 :: s2 :: ']' :: r2 =>
        if (1 ≤ (rest.takeWhile isPySpace).length) &&
            h1.isDigit && h2.isDigit && mi1.isDigit && mi2.isDigit && s1.isDigit && s2.isDigit then
          matchTail ('2' :: '0' :: y3 :: y4 :: '-' :: mo1 :: mo2 :: '-' :: d1 :: d2 ::
              (rest.takeWhile isPySpace ++ [h1, h2, ':', mi1, mi2, ':', s1, s2])) r2
        else none
      | _ => none
    else none
  | _ => none

/-- One parsed utterance (`@dataclass class Turn`). -/
structure Turn where
  idx : Int
  timestamp : String
  speaker : String
  content : String
deriving DecidableEq

/-- The `current` accumulator of `parse_turns`: the open turn's timestamp,
(stripped) speaker and accumulated content lines. -/
structure Current where
  timestamp : List Char
  speaker : List Char
  content_lines : List (List Char)

/-- Closing an open turn: assign the next index, join the content lines
with a newline and strip. -/
def closeTurn (idx : Int) (c : Current) : Turn :=
  { idx := idx
    timestamp := String.mk c.timestamp
    speaker := String.mk c.speaker
    content := String.mk (pyStrip (List.intercalate ['\n'] c.content_lines)) }

/-- The line loop of `parse_turns`.  `cur` is the open turn (if any) and
`idx` the index of the most recently emitted turn. -/
def parseTurnsGo : List (List Char) → Option Current → Int → List Turn
  | [], none, _ => []
  | [], some c, idx => [closeTurn (idx + 1) c]
  | l :: ls, cur, idx =>
    match msgStartMatch l with
    | some (ts, spk, tail) =>
      match cur with
      | none => parseTurnsGo ls (some ⟨ts, pyStrip spk, if tail = [] then [] else [tail]⟩) idx
      | some c =>
        closeTurn (idx + 1) c ::
          parseTurnsGo ls (some ⟨ts, pyStrip spk, if tail = [] then [] else [tail]⟩) (idx + 1)
    | none =>
      match cur with
      | none => parseTurnsGo ls none idx
      | some c => parseTurnsGo ls (some ⟨c.timestamp, c.speaker, c.content_lines ++ [l]⟩) idx

/-- `parse_turns(text)` from `split.py`. -/
def parse_turns (text : String) : List Turn :=
  parseTurnsGo (splitlines text.data) none 0

/-- One element of the list returned by `chunk_indices`
(the dict `{"ch_id": .., "start_i": .., "end_i": ..}`). -/
structure ChunkRange where
  ch_id : Int
  start_i : Int
  end_i : Int
deriving DecidableEq

/-- The `while` loop of `chunk_indices`.  The hypothesis `overlap < size`
is exactly what makes the loop progress: when the emitted range does not
end at `total`, its end is `start + size`, so the next start
`max (start + size - overlap) 0` strictly exceeds `start`. -/
def chunkLoop (total size overlap : Int) (ho : overlap < size) (start chId : Int) :
    List ChunkRange :=
  if _h : start < total then
    if min (start + size) total = total then
      [⟨chId, start, min (start + size) total⟩]
    else
      ⟨chId, start, min (start + size) total⟩ ::
        chunkLoop total size overlap ho (max (min (start + size) total - overlap) 0) (chId + 1)
  else []
termination_by (total - start).toNat
decreasing_by omega

/-- `chunk_indices(total_turns, chunk_size, overlap)` from `split.py`,
including its two argument checks (`raise ValueError` becomes
`Except.error`). -/
def chunk_indices (total_turns chunk_size overlap : Int) : Except String (List ChunkRange) :=
  if chunk_size ≤ 0 then Except.error ("chunk_size must be > 0")
  else if h : overlap < 0 ∨ overlap ≥ chunk_size then
    Except.error ("overlap must be >=0 and < chunk_size")
  else Except.ok (chunkLoop total_turns chunk_size overlap (by omega) 0 1)

/-- Fuel-indexed copy of the `while` loop of `chunk_indices`, used to
state its termination: `none` means the iteration budget ran out. -/
def chunkLoopFuel : Nat → Int → Int → Int → Int → Int → Option (List ChunkRange)
  | 0, _, _, _, _, _ => none
  | fuel + 1, total, size, overlap, start, chId =>
    if start < total then
      if min (start + size) total = total then
        some [⟨chId, start, min (start + size) total⟩]
      else
        match chunkLoopFuel fuel total size overlap (max (min (start + size) total - overlap) 0)
            (chId + 1) with
        | some rs => some (⟨chId, start, min (start + size) total⟩ :: rs)
        | none => none
    else some []

/-- A decoded YAML value, the result of `yaml.safe_load` (Python `None`,
`bool`, `int`, `str`, `list`, `dict`).  Floats do not occur in this
code's data and are not modelled; dictionaries are association lists in
insertion order with pairwise distinct keys (a Python `dict` cannot hold
duplicate keys). -/
inductive Val where
  | none : Val
  | bool : Bool → Val
  | int : Int → Val
  | str : String → Val
  | list : List Val → Val
  | dict : List (Val × Val) → Val

mutual

/-- Python `==` on decoded YAML values (structural; the cross-type
numeric equalities of Python, such as `True == 1`, do not arise in this
code's data and are not modelled). -/
def valBeq : Val → Val → Bool
  | Val.none, Val.none => true
  | Val.bool a, Val.bool b => a == b
  | Val.int a, Val.int b => a == b
  | Val.str a, Val.str b => a == b
  | Val.list a, Val.list b => valBeqList a b
  | Val.dict a, Val.dict b => valBeqEntries a b
  | _, _ => false

/-- Elementwise `valBeq` on lists. -/
def valBeqList : List Val → List Val → Bool
  | [], [] => true
  | x :: xs, y :: ys => valBeq x y && valBeqList xs ys
  | _, _ => false

/-- Elementwise `valBeq` on dict entries. -/
def valBeqEntries : List (Val × Val) → List (Val × Val) → Bool
  | [], [] => true
  | (k1, v1) :: xs, (k2, v2) :: ys => valBeq k1 k2 && valBeq v1 v2 && valBeqEntries xs ys
  | _, _ => false

end

/-- Python `str(v)` for the scalar values that occur as dictionary keys
(used by the `dict_keys` check and in violation messages). -/
def pyStr : Val → String
  | Val.none => "None"
  | Val.bool b => if b then "True" else "False"
  | Val.int n => toString n
  | Val.str s => s
  | Val.list _ => "[...]"
  | Val.dict _ => "\x7b...\x7d"

/-- Python `repr(v)` as it appears when a list of keys is interpolated
into the extra-keys message (only the scalar cases matter). -/
def pyRepr : Val → String
  | Val.str s => "'" ++ s ++ "'"
  | Val.bool b => if b then "True" else "False"
  | Val.int n => toString n
  | Val.none => "None"
  | Val.list _ => "[...]"
  | Val.dict _ => "\x7b...\x7d"

/-- Python `repr` of a list of values, e.g. `['a', 'b']`. -/
def pyReprList (l : List Val) : String :=
  "[" ++ String.intercalate ", " (l.map pyRepr) ++ "]"

/-- One field specification of the schema document.  The Python code
reads a field as a dict via `field.get(..)`; here the accessed keys are
materialised: `name` and `type` are the (string) values of the mandatory
keys, an `Option` models a key that may be absent (or, for the numeric
bounds, set to a non-`int` value, which `isinstance(.., int)` filters
out), and the `Bool` flags model Python truthiness of the stored value. -/
structure Field where
  name : String
  type : String
  required : Bool := false
  non_empty : Bool := false
  max_chars : Option Int := Option.none
  pattern : Option String := Option.none
  min_items : Option Int := Option.none
  max_items : Option Int := Option.none
  min_non_empty_items : Option Int := Option.none
  dict_keys : List Val := []
  non_empty_any : Bool := false

/-- The decoded schema document: the `fields` list and the `derived`
mapping from field name to derivation-rule name. -/
structure Schema where
  fields : List Field
  derived : List (String × String)

/-- Python `m.get(k)` on a string-keyed dict (association list). -/
def assocGet (m : List (String × String)) (k : String) : Option String :=
  (m.find? (fun e => e.1 == k)).map (fun e => e.2)

/-- Python `out[k] = v` on a string-keyed dict: replace in place if the
key is present, append otherwise. -/
def insertAssoc {α : Type} (m : List (String × α)) (k : String) (v : α) : List (String × α) :=
  match m with
  | [] => [(k, v)]
  | (k', v') :: rest => if k' = k then (k, v) :: rest else (k', v') :: insertAssoc rest k v

/-- Python `d[k] = v` on a `Val`-keyed dict. -/
def insertValAssoc (m : List (Val × Val)) (k : Val) (v : Val) : List (Val × Val) :=
  match m with
  | [] => [(k, v)]
  | (k', v') :: rest => if valBeq k' k then (k, v) :: rest else (k', v') :: insertValAssoc rest k v

/-- `_date_ymd_slash(timestamp)`: the part before the first space,
stripped, with `-` replaced by `/`. -/
def dateYmdSlash (ts : String) : String :=
  String.mk ((pyStrip (ts.data.takeWhile (fun c => c ≠ ' '))).map
    (fun c => if c = '-' then '/' else c))

/-- `_time_hms(timestamp)`: the part after the first space, stripped;
`""` if there is no space (`timestamp.split(" ", 1)` has one part). -/
def timeHms (ts : String) : String :=
  if ' ' ∈ ts.data then String.mk (pyStrip ((ts.data.dropWhile (fun c => c ≠ ' ')).drop 1))
  else ""

/-- The first built-in derivation-rule name. -/
def builtinDateRule : String := "from_first_turn_date_ymd_slash"

/-- The second built-in derivation-rule name. -/
def builtinTimeRule : String := "from_first_last_turn_time_range"

/-- `derived_value(name, first_turn, last_turn, derived)` from `split.py`.
Note the Python guard `if not fn: return None`: an absent binding and a
binding to the empty string both mean "no derivation"; only a non-empty
unknown name raises. -/
def derived_value (name : String) (first_turn last_turn : Turn)
    (derived : List (String × String)) : Except String (Option String) :=
  match assocGet derived name with
  | Option.none => Except.ok Option.none
  | Option.some fn =>
    if fn = "" then Except.ok Option.none
    else if fn = builtinDateRule then Except.ok (Option.some (dateYmdSlash first_turn.timestamp))
    else if fn = builtinTimeRule then
      Except.ok (Option.some
        (if timeHms last_turn.timestamp = "" ∨
            timeHms first_turn.timestamp = timeHms last_turn.timestamp
         then timeHms first_turn.timestamp
         else timeHms first_turn.timestamp ++ "-" ++ timeHms last_turn.timestamp))
    else Except.error ("Unknown derived function: " ++ fn)

/-- `default_value_for_field(field)` from `split.py`.  The dict
comprehension `{k: "" for k in keys}` assigns `""` under each key in
turn, which keeps the first position of a repeated key. -/
def default_value_for_field (f : Field) : Val :=
  if f.type = "string" then Val.str ""
  else if f.type = "list" then Val.list []
  else if f.type = "dict" then
    Val.dict (f.dict_keys.foldl (fun m k => insertValAssoc m k (Val.str "")) [])
  else Val.none

/-- The field loop of `make_skeleton`, accumulating the output record. -/
def makeSkeletonGo (derived : List (String × String)) (ft lt : Turn) :
    List Field → List (String × Val) → Except String (List (String × Val))
  | [], out => Except.ok out
  | f :: rest, out =>
    match derived_value f.name ft lt derived with
    | Except.error e => Except.error e
    | Except.ok (Option.some dv) =>
      makeSkeletonGo derived ft lt rest (insertAssoc out f.name (Val.str dv))
    | Except.ok Option.none =>
      makeSkeletonGo derived ft lt rest (insertAssoc out f.name (default_value_for_field f))

/-- `make_skeleton(schema, first_turn, last_turn)` from `split.py`. -/
def make_skeleton (schema : Schema) (first_turn last_turn : Turn) :
    Except String (List (String × Val)) :=
  makeSkeletonGo schema.derived first_turn last_turn schema.fields []

/-- `validate_field(value, field)` from `verify.py`.  `rm` is Python's
`re.match` (a regular-expression engine is outside this embedding; the
claims below hold for every matcher): `rm pattern v` tells whether
`pattern` matches at the start of `v`. -/
def validate_field (rm : String → String → Bool) (value : Val) (f : Field) : List String :=
  match value with
  | Val.none => if f.required then ["Missing key: " ++ f.name] else []
  | value =>
    if f.type = "string" then
      match value with
      | Val.str s =>
        (if f.non_empty ∧ pyStrip s.data = [] then [f.name ++ " is empty"] else []) ++
        (match f.max_chars with
         | Option.some mc =>
           if ((pyStrip s.data).length : Int) > mc then
             [f.name ++ " exceeds max_chars=" ++ toString mc ++
              " (len=" ++ toString (pyStrip s.data).length ++ ")"]
           else []
         | Option.none => []) ++
        (match f.pattern with
         | Option.some p =>
           if p ≠ "" ∧ ¬ rm p (String.mk (pyStrip s.data)) then
             [f.name ++ " does not match pattern: " ++ p]
           else []
         | Option.none => [])
      | _ => [f.name ++ " must be a string"]
    else if f.type = "list" then
      match value with
      | Val.list xs =>
        (match f.min_items with
         | Option.some mn =>
           if (xs.length : Int) < mn then [f.name ++ " requires >= " ++ toString mn ++ " items"]
           else []
         | Option.none => []) ++
        (match f.max_items with
         | Option.some mx =>
           if (xs.length : Int) > mx then [f.name ++ " requires <= " ++ toString mx ++ " items"]
           else []
         | Option.none => []) ++
        (match f.min_non_empty_items with
         | Option.some mne =>
           if ((xs.countP (fun x =>
                match x with
                | Val.str s => ¬ pyStrip s.data = []
                | _ => false)) : Int) < mne then
             [f.name ++ " requires >= " ++ toString mne ++ " non-empty items"]
           else []
         | Option.none => [])
      | _ => [f.name ++ " must be a list"]
    else if f.type = "dict" then
      match value with
      | Val.dict entries =>
        (f.dict_keys.filter (fun k =>
           ¬ (entries.any (fun e => valBeq e.1 k) ∨
              entries.any (fun e => valBeq e.1 (Val.str (pyStr k)))))).map
          (fun k => f.name ++ " missing key: " ++ pyStr k) ++
        (if f.non_empty_any ∧
            ¬ entries.any (fun e =>
              match e.2 with
              | Val.str s => ¬ pyStrip s.data = []
              | _ => false) then
           [f.name ++ " has no non-empty values"]
         else [])
      | _ => [f.name ++ " must be an object/dict"]
    else [f.name ++ " has unsupported type: " ++ f.type]

/-- Python `data.get(name)` on a decoded YAML mapping: the value of the
entry whose key equals the string `name`, and `None` when the key is
absent — exactly the value `validate_field` then receives, so a stored
null and an absent key are indistinguishable from here on. -/
def pyDictGet (entries : List (Val × Val)) (name : String) : Val :=
  match entries.find? (fun e => valBeq e.1 (Val.str name)) with
  | Option.some e => e.2
  | Option.none => Val.none

/-- The per-record part of `validate_yaml_against_schema`: the checks
applied to an already decoded document `data`. -/
def validate_data (rm : String → String → Bool) (data : Val) (schema : Schema) : List String :=
  match data with
  | Val.dict entries =>
    (if ((entries.map Prod.fst).filter
          (fun k => ¬ (schema.fields.map Field.name).any (fun n => valBeq k (Val.str n)))).isEmpty
     then []
     else ["Extra keys not in schema.yaml: " ++
       pyReprList ((entries.map Prod.fst).filter
         (fun k => ¬ (schema.fields.map Field.name).any (fun n => valBeq k (Val.str n))))]) ++
    schema.fields.flatMap (fun f => validate_field rm (pyDictGet entries f.name) f)
  | _ => ["Root is not a mapping/object"]

/-- `validate_yaml_against_schema(path, schema)` from `verify.py`.  The
file read and `yaml.safe_load` are abstracted into the `loaded` argument:
`Except.error e` is a document whose parse raised `e`. -/
def validate_yaml_against_schema (rm : String → String → Bool)
    (loaded : Except String Val) (schema : Schema) : List String :=
  match loaded with
  | Except.error e => ["YAML parse error: " ++ e]
  | Except.ok data => validate_data rm data schema

/-- The part of the filesystem `verify.main` observes: whether the two
directories and the schema file exist, the stems of the `ch_*.txt` chunk
files, and the `ch_*.yaml` record files as (stem, decoded document)
pairs.  Globbing a directory yields pairwise distinct stems. -/
structure VerifyInput where
  chunksDirExists : Bool
  chaptersDirExists : Bool
  schemaExists : Bool
  chunkStems : List String
  yamlFiles : List (String × Except String Val)

/-- `main()` of `verify.py`: the returned process exit code.  The sorting
of the globbed lists and everything printed only affect the report text,
not the exit code; note that `extra_yaml` (records without a chunk) is
computed for the report but does not enter `problems`. -/
def verifyMain (rm : String → String → Bool) (inp : VerifyInput) (schema : Schema) : Int :=
  if ¬ inp.chunksDirExists then 2
  else if ¬ inp.chaptersDirExists then 2
  else if ¬ inp.schemaExists then 2
  else
    let yaml_ids := (inp.yamlFiles.map Prod.fst).dedup
    let missing_yaml := inp.chunkStems.dedup.filter (fun c => ¬ yaml_ids.contains c)
    let _extra_yaml := yaml_ids.filter (fun y => ¬ inp.chunkStems.dedup.contains y)
    let bad := inp.yamlFiles.filter
      (fun y => validate_yaml_against_schema rm y.2 schema ≠ [])
    if missing_yaml.length + bad.length ≠ 0 then 1 else 0

/-- `f"ch_{ch_id:04d}"` zero-padding for a non-negative chunk identifier. -/
def pad4 (n : Nat) : String :=
  if (toString n).length < 4 then
    String.mk (List.replicate (4 - (toString n).length) '0') ++ toString n
  else toString n

/-- The record-file path `f"ch_{ch_id:04d}.yaml"` (relative to the
chapters directory). -/
def chapterPath (chId : Nat) : String := "ch_" ++ pad4 chId ++ ".yaml"

/-- A simplified rendering standing in for
`yaml.safe_dump(data, allow_unicode=True, sort_keys=False)`: keys in
insertion order, one per line.  The exact byte format of the dumper is
not modelled; no claim below depends on it (the write-once claim is
about files that are not written). -/
def yamlDump (data : List (String × Val)) : String :=
  String.join (data.map (fun e => e.1 ++ ": " ++ pyStr e.2 ++ "\n"))

/-- `write_memory_yaml(ch_id, schema, first_turn, last_turn, out_dir)`
from `split.py`, over a filesystem modelled as an association list from
path to contents.  The skeleton is computed and written only when the
path does not exist. -/
def write_memory_yaml (fs : List (String × String)) (chId : Nat) (schema : Schema)
    (ft lt : Turn) : Except String (List (String × String)) :=
  if ((fs.find? (fun e => e.1 == chapterPath chId)).map (fun e => e.2)).isSome then
    Except.ok fs
  else
    match make_skeleton schema ft lt with
    | Except.error e => Except.error e
    | Except.ok data => Except.ok (insertAssoc fs (chapterPath chId) (yamlDump data))

/-- A concrete turn used by witnesses and counterexamples. -/
def sampleTurn : Turn := ⟨1, "2024-01-01 10:20:30", "A", "hi"⟩

/-- A run of Python whitespace characters. -/
def WsRun (l : List Char) : Prop := ∀ c ∈ l, isPySpace c = true

/-- The turn-start marker shape exactly as claim C4 words it: literal `[`,
a date `YYYY-MM-DD` with year beginning `20`, ONE SPACE, a time
`HH:MM:SS`, literal `]`, optional whitespace, a speaker of one or more
characters followed by `:`, optional whitespace, inline content. -/
def MarkerShapeOneSpace (line : List Char) : Prop :=
  ∃ (y3 y4 mo1 mo2 d1 d2 h1 h2 mi1 mi2 s1 s2 : Char) (ws2 spk ws3 content : List Char),
    (y3.isDigit ∧ y4.isDigit ∧ mo1.isDigit ∧ mo2.isDigit ∧ d1.isDigit ∧ d2.isDigit
      ∧ h1.isDigit ∧ h2.isDigit ∧ mi1.isDigit ∧ mi2.isDigit ∧ s1.isDigit ∧ s2.isDigit)
    ∧ WsRun ws2 ∧ spk ≠ [] ∧ WsRun ws3
    ∧ line = '[' :: '2' :: '0' :: y3 :: y4 :: '-' :: mo1 :: mo2 :: '-' :: d1 :: d2 ::
        ' ' :: h1 :: h2 :: ':' :: mi1 :: mi2 :: ':' :: s1 :: s2 :: ']' ::
        (ws2 ++ spk ++ ':' :: (ws3 ++ content))

/-- The turn-start marker shape with the separator corrected to one or
more whitespace characters (the `\s+` of `MSG_START_RE`); otherwise
identical to the spec's wording: optional whitespace after `]`, a
non-empty speaker followed by `:`, optional whitespace, inline content. -/
def MarkerShapeWs (line : List Char) : Prop :=
  ∃ (y3 y4 mo1 mo2 d1 d2 : Char) (ws1 : List Char) (h1 h2 mi1 mi2 s1 s2 : Char)
    (ws2 spk ws3 content : List Char),
    (y3.isDigit ∧ y4.isDigit ∧ mo1.isDigit ∧ mo2.isDigit ∧ d1.isDigit ∧ d2.isDigit
      ∧ h1.isDigit ∧ h2.isDigit ∧ mi1.isDigit ∧ mi2.isDigit ∧ s1.isDigit ∧ s2.isDigit)
    ∧ ws1 ≠ [] ∧ WsRun ws1 ∧ WsRun ws2 ∧ spk ≠ [] ∧ WsRun ws3
    ∧ line = '[' :: '2' :: '0' :: y3 :: y4 :: '-' :: mo1 :: mo2 :: '-' :: d1 :: d2 ::
        (ws1 ++ h1 :: h2 :: ':' :: mi1 :: mi2 :: ':' :: s1 :: s2 :: ']' ::
         (ws2 ++ spk ++ ':' :: (ws3 ++ content)))

/-- Schema fields for which every freshly generated skeleton value passes
every declared check: a supported type, no content constraint that can
reject a default value (`non_empty`, a pattern, a positive minimum, a
negative maximum, `non_empty_any`), and any bound derivation rule is a
built-in placed on an unconstrained string field. -/
def BenignField (derived : List (String × String)) (f : Field) : Prop :=
  (f.type = "string" ∨ f.type = "list" ∨ f.type = "dict")
  ∧ f.non_empty = false
  ∧ f.pattern = Option.none
  ∧ f.non_empty_any = false
  ∧ (∀ n, f.min_items = Option.some n → n ≤ 0)
  ∧ (∀ n, f.min_non_empty_items = Option.some n → n ≤ 0)
  ∧ (∀ n, f.max_chars = Option.some n → 0 ≤ n)
  ∧ (∀ n, f.max_items = Option.some n → 0 ≤ n)
  ∧ (∀ fn, assocGet derived f.name = Option.some fn → fn ≠ "" →
      ((fn = builtinDateRule ∨ fn = builtinTimeRule) ∧ f.type = "string"
        ∧ f.max_chars = Option.none))

/-- A generated record, as the validator sees it after the YAML
dump/load round trip: the same entries, with string keys, in insertion
order (`safe_dump(.., sort_keys=False)` followed by `safe_load`
preserves both for these documents). -/
def recordToVal (data : List (String × Val)) : Val :=
  Val.dict (data.map (fun e => (Val.str e.1, e.2)))

/-- The value `make_skeleton` stores for one field: the derived string
when a derivation rule applies, the type default otherwise. -/
def skelVal (derived : List (String × String)) (ft lt : Turn) (f : Field) : Val :=
  match derived_value f.name ft lt derived with
  | Except.ok (Option.some s) => Val.str s
  | _ => default_value_for_field f

/-- The integer sequence `s, s+1, ..., s+n-1`, used to state that emitted
turn indices are consecutive. -/
def intRange (s : Int) : Nat → List Int
  | 0 => []
  | n + 1 => s :: intRange (s + 1) n

/-- Concrete schemas and fields used by witnesses and counterexamples. -/
def fieldA : Field := { name := "a", type := "string" }

def schemaBogusRule : Schema := { fields := [fieldA], derived := [("a", "bogus")] }

def schemaEmptyRule : Schema := { fields := [fieldA], derived := [("a", "")] }

def emptySchema : Schema := { fields := [], derived := [] }

def schemaReq : Schema :=
  { fields := [{ name := "a", type := "string", required := true, non_empty := true }],
    derived := [] }

def fieldDate : Field := { name := "date", type := "string" }

def fieldSummary : Field := { name := "summary", type := "string", required := true }

def fieldTags : Field := { name := "tags", type := "list", max_items := Option.some 10 }

def fieldWho : Field := { name := "who", type := "dict", dict_keys := [Val.str "x"] }

def schemaBenign : Schema :=
  { fields := [fieldDate, fieldSummary, fieldTags, fieldWho],
    derived := [("date", "from_first_turn_date_ymd_slash")] }

def fieldSummaryNE : Field :=
  { name := "summary", type := "string", required := true, non_empty := true }

def schemaSummaryNE : Schema := { fields := [fieldSummaryNE], derived := [] }

theorem valBeq_str_str (a b : String) : valBeq (Val.str a) (Val.str b) = (a == b) := rfl

/-- C1 (amended): the verify pass `main` exits nonzero iff a required
directory or the schema file is absent, some chunk file has no record
with the same stem, or some record file fails validation.  A record file
with no matching chunk is reported but does not affect the exit status,
because `problems = len(missing_yaml) + len(bad)` never counts
`extra_yaml`. -/
theorem verify_exit_nonzero_iff (rm : String → String → Bool) (inp : VerifyInput)
    (schema : Schema) :
    verifyMain rm inp schema ≠ 0 ↔
      (inp.chunksDirExists = false ∨ inp.chaptersDirExists = false ∨ inp.schemaExists = false
       ∨ (∃ c ∈ inp.chunkStems, ∀ y ∈ inp.yamlFiles, y.1 ≠ c)
       ∨ (∃ y ∈ inp.yamlFiles, validate_yaml_against_schema rm y.2 schema ≠ [])) := by
  obtain ⟨cd, od, se, cs, ys⟩ := inp
  cases cd <;> cases od <;> cases se <;> simp [verifyMain]
  constructor
  · intro h
    by_cases hA : ∃ c ∈ cs, ∀ (a : String) (b : Except String Val), (a, b) ∈ ys → ¬ a = c
    · exact Or.inl hA
    · push_neg at hA
      refine Or.inr (h fun a ha => ?_)
      obtain ⟨a2, b, hab, heq⟩ := hA a ha
      exact ⟨b, by rwa [heq] at hab⟩
  · intro h hall
    rcases h with ⟨c, hc, hnone⟩ | h
    · obtain ⟨x, hx⟩ := hall c hc
      exact absurd rfl (hnone c x hx)
    · exact h

/-- C1 (counterexample): with both directories and the schema present,
no chunk files, and a single record file `ch_0001.yaml` that parses and
validates cleanly, a record without a matching chunk exists, yet `main`
returns exit code 0 — the claim demands a nonzero code here. -/
theorem verify_exit_orphan_record_counterexample :
    verifyMain (fun _ _ => true)
        { chunksDirExists := true, chaptersDirExists := true, schemaExists := true,
          chunkStems := [],
          yamlFiles := [("ch_0001", Except.ok (Val.dict []))] }
        { fields := [], derived := [] } = 0
    ∧ ("ch_0001", (Except.ok (Val.dict []) : Except String Val)) ∈
        [("ch_0001", (Except.ok (Val.dict []) : Except String Val))]
    ∧ ("ch_0001" : String) ∉ ([] : List String) := by
  refine ⟨by rfl, by simp, by simp⟩

theorem makeSkeletonGo_error (derived : List (String × String)) (ft lt : Turn)
    (fields : List Field) (f : Field) (fn : String)
    (hf : f ∈ fields) (hget : assocGet derived f.name = Option.some fn)
    (hne : fn ≠ "") (hb1 : fn ≠ builtinDateRule) (hb2 : fn ≠ builtinTimeRule) :
    ∀ out, ∃ e, makeSkeletonGo derived ft lt fields out = Except.error e := by
  induction fields with
  | nil => cases hf
  | cons g rest ih =>
    intro out
    rcases List.mem_cons.mp hf with rfl | hf2
    · refine ⟨"Unknown derived function: " ++ fn, ?_⟩
      simp only [makeSkeletonGo, derived_value, hget, if_neg hne, if_neg hb1, if_neg hb2]
    · cases hd : derived_value g.name ft lt derived with
      | error e => exact ⟨e, by simp only [makeSkeletonGo, hd]⟩
      | ok o =>
        cases o with
        | some dv =>
          obtain ⟨e, he⟩ := ih hf2 (insertAssoc out g.name (Val.str dv))
          exact ⟨e, by simp only [makeSkeletonGo, hd, he]⟩
        | none =>
          obtain ⟨e, he⟩ := ih hf2 (insertAssoc out g.name (default_value_for_field g))
          exact ⟨e, by simp only [makeSkeletonGo, hd, he]⟩

/-- C7 (amended): if the schema's derived mapping binds some field name
to a non-empty derivation-rule name other than the two built-ins,
`make_skeleton` raises (`ValueError: Unknown derived function`) instead
of producing a record. -/
theorem make_skeleton_unknown_rule_error (schema : Schema) (ft lt : Turn)
    (f : Field) (fn : String)
    (hf : f ∈ schema.fields) (hget : assocGet schema.derived f.name = Option.some fn)
    (hne : fn ≠ "") (hb1 : fn ≠ builtinDateRule) (hb2 : fn ≠ builtinTimeRule) :
    ∃ e, make_skeleton schema ft lt = Except.error e :=
  makeSkeletonGo_error schema.derived ft lt schema.fields f fn hf hget hne hb1 hb2 []

/-- C7 witness: the unknown rule name "bogus" makes `make_skeleton`
raise. -/
theorem make_skeleton_unknown_rule_error_witness :
    ∃ e, make_skeleton schemaBogusRule sampleTurn sampleTurn = Except.error e :=
  make_skeleton_unknown_rule_error schemaBogusRule sampleTurn sampleTurn fieldA "bogus"
    (List.mem_cons_self _ _) (by rfl) (by decide) (by decide) (by decide)

/-- C7 (counterexample): binding field "a" to the empty derivation-rule
name — a name other than the two built-ins — does not raise: the guard
`if not fn` treats the Python-falsy `""` as no derivation and the
skeleton `{a: ""}` is produced. -/
theorem make_skeleton_empty_rule_counterexample :
    make_skeleton schemaEmptyRule sampleTurn sampleTurn = Except.ok [("a", Val.str "")]
    ∧ ("" : String) ≠ builtinDateRule ∧ ("" : String) ≠ builtinTimeRule :=
  ⟨by rfl, by decide, by decide⟩

/-- C8: write-once-if-absent.  If the record file for a chunk
identifier already exists, `write_memory_yaml` returns with the
filesystem unchanged, byte for byte; a skeleton is dumped and written
only when no record exists under that path. -/
theorem write_memory_yaml_write_once (fs : List (String × String)) (chId : Nat)
    (schema : Schema) (ft lt : Turn) :
    (∀ content, fs.find? (fun e => e.1 == chapterPath chId) = Option.some content →
        write_memory_yaml fs chId schema ft lt = Except.ok fs)
  ∧ (∀ data, fs.find? (fun e => e.1 == chapterPath chId) = Option.none →
        make_skeleton schema ft lt = Except.ok data →
        write_memory_yaml fs chId schema ft lt
          = Except.ok (insertAssoc fs (chapterPath chId) (yamlDump data))) := by
  constructor
  · intro content hfind
    simp only [write_memory_yaml, hfind, Option.map_some', Option.isSome_some, if_true]
  · intro data hfind hskel
    simp only [write_memory_yaml, hfind, Option.map_none', Option.isSome_none,
      Bool.false_eq_true, if_false, hskel]

/-- C8 witness: an existing `ch_0001.yaml` with contents "orig" is left
untouched by a second generation run. -/
theorem write_memory_yaml_write_once_witness :
    write_memory_yaml [("ch_0001.yaml", "orig")] 1 emptySchema sampleTurn sampleTurn
      = Except.ok [("ch_0001.yaml", "orig")] :=
  (write_memory_yaml_write_once [("ch_0001.yaml", "orig")] 1 emptySchema
      sampleTurn sampleTurn).1 ("ch_0001.yaml", "orig") (by rfl)

theorem pyDictGet_null_cons (name : String) (rest : List (Val × Val))
    (hrest : ∀ p ∈ rest, valBeq p.1 (Val.str name) = false) (nm : String) :
    pyDictGet ((Val.str name, Val.none) :: rest) nm = pyDictGet rest nm := by
  unfold pyDictGet
  rcases eq_or_ne name nm with rfl | hne
  · rw [List.find?_cons_of_pos _ (by simp [valBeq_str_str]),
      List.find?_eq_none.mpr (fun x hx => by simp [hrest x hx])]
  · rw [List.find?_cons_of_neg _ (by simp [valBeq_str_str, hne])]

/-- C9: a field whose stored value is null is validated exactly like an
absent field.  Validating a record that stores null under a schema field
name gives the same violations as validating the record without that
key; and for any field specification, a missing/null value yields
exactly the one "Missing key" violation when required and no violation
otherwise, regardless of declared type or content constraints. -/
theorem null_value_like_missing (rm : String → String → Bool) (schema : Schema)
    (name : String) (rest : List (Val × Val))
    (hmem : name ∈ schema.fields.map Field.name)
    (hrest : ∀ p ∈ rest, valBeq p.1 (Val.str name) = false) :
    validate_data rm (Val.dict ((Val.str name, Val.none) :: rest)) schema
        = validate_data rm (Val.dict rest) schema
    ∧ ∀ f : Field, validate_field rm Val.none f
        = if f.required then ["Missing key: " ++ f.name] else [] := by
  refine ⟨?_, fun f => rfl⟩
  have hhead : ((schema.fields.map Field.name).any fun n => valBeq (Val.str name) (Val.str n))
      = true := by
    simp only [List.any_eq_true, valBeq_str_str, beq_iff_eq]
    exact ⟨name, hmem, rfl⟩
  have hget := pyDictGet_null_cons name rest hrest
  simp only [validate_data, List.map_cons, List.filter_cons, hhead, hget, not_true,
    decide_False, Bool.false_eq_true, if_false]

/-- C9 witness: a null `a` under a required, non-empty string field
validates exactly like the empty record. -/
theorem null_value_like_missing_witness :
    validate_data (fun _ _ => true) (Val.dict [(Val.str "a", Val.none)]) schemaReq
      = validate_data (fun _ _ => true) (Val.dict []) schemaReq :=
  (null_value_like_missing (fun _ _ => true) schemaReq "a" []
    (by simp [schemaReq]) (by simp)).1

theorem chunkLoop_last_end (total size ov : Int) (ho : ov < size) (hov : 0 ≤ ov)
    (start chId : Int) (h0 : 0 ≤ start) (hlt : start < total) :
    ((chunkLoop total size ov ho start chId).getLast?).map ChunkRange.end_i = some total := by
  rw [chunkLoop, dif_pos hlt]
  by_cases he : min (start + size) total = total
  · rw [if_pos he]
    simp [he]
  · rw [if_neg he]
    have hrec := chunkLoop_last_end total size ov ho hov
      (max (min (start + size) total - ov) 0) (chId + 1) (by omega) (by omega)
    cases hrest : chunkLoop total size ov ho (max (min (start + size) total - ov) 0) (chId + 1) with
    | nil => rw [hrest] at hrec; simp at hrec
    | cons b l =>
      rw [hrest] at hrec
      rw [List.getLast?_cons_cons]
      exact hrec
termination_by (total - start).toNat
decreasing_by omega

/-- C3 (amended): for every `total_turns ≥ 1`, `chunk_size > 0` and
`0 ≤ overlap < chunk_size`, `chunk_indices` succeeds and the last range
of the returned sequence ends exactly at `total_turns`. -/
theorem chunk_indices_last_end (total size ov : Int) (hs : 0 < size) (hov : 0 ≤ ov)
    (ho : ov < size) (ht : 1 ≤ total) :
    ∃ rs, chunk_indices total size ov = Except.ok rs
      ∧ (rs.getLast?).map ChunkRange.end_i = some total := by
  refine ⟨chunkLoop total size ov (by omega) 0 1, ?_, ?_⟩
  · unfold chunk_indices
    rw [if_neg (by omega), dif_neg (by omega)]
  · exact chunkLoop_last_end total size ov _ hov 0 1 (by omega) (by omega)

/-- C3 witness: `chunk_indices 5 2 1` ends with a range whose end is 5. -/
theorem chunk_indices_last_end_witness :
    ∃ rs, chunk_indices 5 2 1 = Except.ok rs
      ∧ (rs.getLast?).map ChunkRange.end_i = some 5 :=
  chunk_indices_last_end 5 2 1 (by norm_num) (by norm_num) (by norm_num) (by norm_num)

/-- C3 (counterexample): at `total_turns = 0` (with valid size 1 and
overlap 0, both allowed by the claim's `total_turns ≥ 0`) the returned
sequence is empty, so it does not end with a range whose end equals the
total. -/
theorem chunk_indices_total_zero_counterexample :
    chunk_indices 0 1 0 = Except.ok []
    ∧ ((([] : List ChunkRange).getLast?).map ChunkRange.end_i ≠ some 0) := by
  constructor
  · simp only [chunk_indices]
    rw [if_neg (by norm_num), dif_neg (by norm_num)]
    rw [chunkLoop]
    norm_num
  · simp

theorem chunkLoop_mem_bounds (total size ov : Int) (ho : ov < size) (hs : 0 < size)
    (start chId : Int) :
    ∀ r ∈ chunkLoop total size ov ho start chId, r.start_i < r.end_i ∧ r.end_i ≤ total := by
  rw [chunkLoop]
  by_cases hlt : start < total
  · rw [dif_pos hlt]
    by_cases he : min (start + size) total = total
    · rw [if_pos he]
      intro r hr
      rw [List.mem_singleton] at hr
      subst hr
      exact ⟨by show start < min (start + size) total; omega,
        by show min (start + size) total ≤ total; omega⟩
    · rw [if_neg he]
      intro r hr
      rcases List.mem_cons.mp hr with rfl | hr2
      · exact ⟨by show start < min (start + size) total; omega,
          by show min (start + size) total ≤ total; omega⟩
      · exact chunkLoop_mem_bounds total size ov ho hs
          (max (min (start + size) total - ov) 0) (chId + 1) r hr2
  · rw [dif_neg hlt]
    intro r hr
    cases hr
termination_by (total - start).toNat
decreasing_by omega

theorem chunkLoop_countP_zero_overlap (total size : Int) (ho : (0 : Int) < size)
    (start chId k : Int) (h0 : 0 ≤ start) :
    (chunkLoop total size 0 ho start chId).countP
        (fun r => decide (r.start_i ≤ k ∧ k < r.end_i))
      = if start ≤ k ∧ k < total then 1 else 0 := by
  rw [chunkLoop]
  by_cases hlt : start < total
  · rw [dif_pos hlt]
    by_cases he : min (start + size) total = total
    · rw [if_pos he]
      simp only [List.countP_cons, List.countP_nil, Nat.zero_add, decide_eq_true_eq]
      split_ifs <;> omega
    · rw [if_neg he]
      have hrec := chunkLoop_countP_zero_overlap total size ho
        (max (min (start + size) total - 0) 0) (chId + 1) k (by omega)
      rw [List.countP_cons, hrec]
      simp only [decide_eq_true_eq]
      split_ifs <;> omega
  · rw [dif_neg hlt]
    rw [if_neg (by omega)]
    simp
termination_by (total - start).toNat
decreasing_by omega

/-- C6: for every `total_turns ≥ 0` and `chunk_size > 0`, with
`overlap = 0` the returned ranges exactly tile `[0, total_turns)`:
every index in the interval lies in exactly one returned range (and
indices outside it in none), and every returned range is non-empty with
end at most `total_turns`. -/
theorem chunk_indices_zero_overlap_tiling (total size : Int) (hs : 0 < size) (_ht : 0 ≤ total) :
    ∃ rs, chunk_indices total size 0 = Except.ok rs
      ∧ (∀ k : Int, rs.countP (fun r => decide (r.start_i ≤ k ∧ k < r.end_i))
            = if 0 ≤ k ∧ k < total then 1 else 0)
      ∧ (∀ r ∈ rs, r.start_i < r.end_i ∧ r.end_i ≤ total) := by
  refine ⟨chunkLoop total size 0 (by omega) 0 1, ?_, fun k => ?_, ?_⟩
  · unfold chunk_indices
    rw [if_neg (by omega), dif_neg (by omega)]
  · exact chunkLoop_countP_zero_overlap total size (by omega) 0 1 k (by omega)
  · exact chunkLoop_mem_bounds total size 0 (by omega) hs 0 1

/-- C6 witness: the tiling property at `total_turns = 5`,
`chunk_size = 2`. -/
theorem chunk_indices_zero_overlap_tiling_witness :
    ∃ rs, chunk_indices 5 2 0 = Except.ok rs
      ∧ (∀ k : Int, rs.countP (fun r => decide (r.start_i ≤ k ∧ k < r.end_i))
            = if 0 ≤ k ∧ k < 5 then 1 else 0)
      ∧ (∀ r ∈ rs, r.start_i < r.end_i ∧ r.end_i ≤ 5) :=
  chunk_indices_zero_overlap_tiling 5 2 (by norm_num) (by norm_num)

theorem chunkLoopFuel_mono (n : Nat) :
    ∀ m total size overlap start chId rs, n ≤ m →
      chunkLoopFuel n total size overlap start chId = some rs →
      chunkLoopFuel m total size overlap start chId = some rs := by
  induction n with
  | zero => intro m total size overlap start chId rs _ h; simp [chunkLoopFuel] at h
  | succ n ih =>
    intro m total size overlap start chId rs hnm h
    cases m with
    | zero => omega
    | succ m =>
      rw [chunkLoopFuel] at h ⊢
      by_cases hlt : start < total
      · rw [if_pos hlt] at h ⊢
        by_cases he : min (start + size) total = total
        · rw [if_pos he] at h ⊢
          exact h
        · rw [if_neg he] at h ⊢
          cases hrec : chunkLoopFuel n total size overlap
              (max (min (start + size) total - overlap) 0) (chId + 1) with
          | none => rw [hrec] at h; cases h
          | some rs2 =>
            rw [hrec] at h
            rw [ih m total size overlap _ (chId + 1) rs2 (by omega) hrec]
            exact h
      · rw [if_neg hlt] at h ⊢
        exact h

theorem chunkLoopFuel_reaches (total size overlap : Int) (ho : overlap < size)
    (start chId : Int) :
    chunkLoopFuel ((total - start).toNat + 1) total size overlap start chId
      = some (chunkLoop total size overlap ho start chId) := by
  rw [chunkLoopFuel, chunkLoop]
  by_cases hlt : start < total
  · rw [if_pos hlt, dif_pos hlt]
    by_cases he : min (start + size) total = total
    · rw [if_pos he, if_pos he]
    · rw [if_neg he, if_neg he]
      have hrec := chunkLoopFuel_reaches total size overlap ho
        (max (min (start + size) total - overlap) 0) (chId + 1)
      rw [chunkLoopFuel_mono _ _ total size overlap _ (chId + 1) _ (by omega) hrec]
  · rw [if_neg hlt, dif_neg hlt]
termination_by (total - start).toNat
decreasing_by omega

/-- C10: the `chunk_indices` loop terminates for every `total_turns`
and valid parameters: a fuel-indexed copy of the loop reaches the
result of the loop within `total_turns + 1` iterations, because each
non-final iteration strictly increases `start` (the next start is
`end - overlap` with `overlap < chunk_size`). -/
theorem chunk_indices_terminates (total size overlap : Int) (hs : 0 < size)
    (hov : 0 ≤ overlap) (ho : overlap < size) :
    ∃ rs, chunkLoopFuel (total.toNat + 1) total size overlap 0 1 = some rs
      ∧ chunk_indices total size overlap = Except.ok rs := by
  refine ⟨chunkLoop total size overlap (by omega) 0 1, ?_, ?_⟩
  · have := chunkLoopFuel_reaches total size overlap (by omega) 0 1
    simpa using this
  · unfold chunk_indices
    rw [if_neg (by omega), dif_neg (by omega)]

/-- C10 witness: six iterations suffice for `chunk_indices 5 2 1`. -/
theorem chunk_indices_terminates_witness :
    ∃ rs, chunkLoopFuel (6 : Nat) 5 2 1 0 1 = some rs
      ∧ chunk_indices 5 2 1 = Except.ok rs :=
  chunk_indices_terminates 5 2 1 (by norm_num) (by norm_num) (by norm_num)

theorem intRange_length (s : Int) (n : Nat) : (intRange s n).length = n := by
  induction n generalizing s with
  | zero => rfl
  | succ n ih => simp [intRange, ih]

theorem parseTurnsGo_map_idx (lines : List (List Char)) :
    ∀ (cur : Option Current) (idx : Int),
      (parseTurnsGo lines cur idx).map Turn.idx
        = intRange (idx + 1)
            (lines.countP (fun l => (msgStartMatch l).isSome)
              + (if cur.isSome then 1 else 0)) := by
  induction lines with
  | nil =>
    intro cur idx
    cases cur with
    | none => rfl
    | some c => rfl
  | cons l ls ih =>
    intro cur idx
    cases hm : msgStartMatch l with
    | some g =>
      obtain ⟨ts, spk, tail⟩ := g
      cases cur with
      | none =>
        simp only [parseTurnsGo, hm]
        rw [ih]
        simp [List.countP_cons, hm]
      | some c =>
        simp only [parseTurnsGo, hm, List.map_cons]
        rw [ih]
        have hc : Turn.idx (closeTurn (idx + 1) c) = idx + 1 := rfl
        rw [hc]
        simp only [List.countP_cons, hm, Option.isSome_some, if_true]
        rfl
    | none =>
      cases cur with
      | none =>
        simp only [parseTurnsGo, hm]
        rw [ih]
        simp [List.countP_cons, hm]
      | some c =>
        simp only [parseTurnsGo, hm]
        rw [ih]
        simp [List.countP_cons, hm]

/-- C5: for every transcript text with exactly N lines matching the
turn-start marker, `parse_turns` returns exactly N turns whose `idx`
fields are `1, 2, ..., N` in order. -/
theorem parse_turns_indices (text : String) :
    (parse_turns text).length
        = (splitlines text.data).countP (fun l => (msgStartMatch l).isSome)
    ∧ (parse_turns text).map Turn.idx
        = intRange 1 ((splitlines text.data).countP (fun l => (msgStartMatch l).isSome)) := by
  have h := parseTurnsGo_map_idx (splitlines text.data) Option.none 0
  simp only [Option.isSome_none, Bool.false_eq_true, if_false, Nat.add_zero, Int.zero_add] at h
  constructor
  · have hlen := congrArg List.length h
    simpa [intRange_length] using hlen
  · exact h

theorem valBeq_iff (a b : Val) : valBeq a b = true ↔ a = b := by
  refine valBeq.induct
    (fun a b => valBeq a b = true ↔ a = b)
    (fun xs ys => valBeqEntries xs ys = true ↔ xs = ys)
    (fun xs ys => valBeqList xs ys = true ↔ xs = ys)
    ?_ ?_ ?_ ?_ ?_ ?_ ?_ ?_ ?_ ?_ ?_ ?_ ?_ a b
  · simp [valBeq]
  · intro a b
    simp [valBeq]
  · intro a b
    simp [valBeq]
  · intro a b
    simp [valBeq]
  · intro a b ih
    simp only [valBeq, Val.list.injEq]
    exact ih
  · intro a b ih
    simp only [valBeq, Val.dict.injEq]
    exact ih
  · intro t x h1 h2 h3 h4 h5 h6
    cases t <;> cases x <;>
      first
        | exact (h1 rfl rfl).elim
        | exact (h2 _ _ rfl rfl).elim
        | exact (h3 _ _ rfl rfl).elim
        | exact (h4 _ _ rfl rfl).elim
        | exact (h5 _ _ rfl rfl).elim
        | exact (h6 _ _ rfl rfl).elim
        | simp [valBeq]
  · simp [valBeqList]
  · intro x xs y ys ih1 ih2
    simp [valBeqList, Bool.and_eq_true, ih1, ih2]
  · intro t x h1 h2
    cases t with
    | nil =>
      cases x with
      | nil => exact (h1 rfl rfl).elim
      | cons y ys => simp [valBeqList]
    | cons a as =>
      cases x with
      | nil => simp [valBeqList]
      | cons y ys => exact (h2 a as y ys rfl rfl).elim
  · simp [valBeqEntries]
  · intro k1 v1 xs k2 v2 ys ih1 ih2 ih3
    simp [valBeqEntries, Bool.and_eq_true, ih1, ih2, ih3, and_assoc]
  · intro t x h1 h2
    cases t with
    | nil =>
      cases x with
      | nil => exact (h1 rfl rfl).elim
      | cons q qs => simp [valBeqEntries]
    | cons p ps =>
      cases x with
      | nil => simp [valBeqEntries]
      | cons q qs => exact (h2 p.1 p.2 ps q.1 q.2 qs rfl rfl).elim

theorem insertAssoc_append {α : Type} (out : List (String × α)) (k : String) (v : α)
    (hk : ∀ p ∈ out, p.1 ≠ k) :
    insertAssoc out k v = out ++ [(k, v)] := by
  induction out with
  | nil => rfl
  | cons p rest ih =>
    have hp : p.1 ≠ k := hk p (List.mem_cons_self p rest)
    simp only [insertAssoc, if_neg hp, List.cons_append]
    rw [ih (fun q hq => hk q (List.mem_cons_of_mem p hq))]

theorem benign_derived_value (derived : List (String × String)) (f : Field) (ft lt : Turn)
    (hb : BenignField derived f) :
    ∃ o, derived_value f.name ft lt derived = Except.ok o
      ∧ (∀ s, o = Option.some s →
          f.type = "string" ∧ f.max_chars = Option.none) := by
  obtain ⟨-, -, -, -, -, -, -, -, hder⟩ := hb
  cases hget : assocGet derived f.name with
  | none => exact ⟨Option.none, by simp only [derived_value, hget], by simp⟩
  | some fn =>
    by_cases he : fn = ""
    · refine ⟨Option.none, ?_, by simp⟩
      simp only [derived_value, hget]
      rw [if_pos he]
    · obtain ⟨hb12, hty, hmc⟩ := hder fn hget he
      rcases hb12 with h1 | h2
      · refine ⟨Option.some (dateYmdSlash ft.timestamp), ?_, fun s _ => ⟨hty, hmc⟩⟩
        simp only [derived_value, hget]
        rw [if_neg he, if_pos h1]
      · refine ⟨Option.some (if timeHms lt.timestamp = "" ∨
            timeHms ft.timestamp = timeHms lt.timestamp then timeHms ft.timestamp
            else timeHms ft.timestamp ++ "-" ++ timeHms lt.timestamp), ?_, fun s _ => ⟨hty, hmc⟩⟩
        have hne1 : fn ≠ builtinDateRule := by
          intro hcon
          rw [hcon] at h2
          exact absurd h2 (by decide)
        simp only [derived_value, hget]
        rw [if_neg he, if_neg hne1, if_pos h2]

theorem makeSkeletonGo_ok (derived : List (String × String)) (ft lt : Turn) :
    ∀ (fields : List Field) (out : List (String × Val)),
      (∀ f ∈ fields, BenignField derived f) →
      ((fields.map Field.name).Nodup) →
      (∀ f ∈ fields, ∀ p ∈ out, p.1 ≠ f.name) →
      makeSkeletonGo derived ft lt fields out
        = Except.ok (out ++ fields.map (fun f => (f.name, skelVal derived ft lt f))) := by
  intro fields
  induction fields with
  | nil => intro out _ _ _; simp [makeSkeletonGo]
  | cons f rest ih =>
    intro out hb hnodup hdisj
    obtain ⟨o, ho, hos⟩ := benign_derived_value derived f ft lt (hb f (List.mem_cons_self f rest))
    have hdisj1 : ∀ p ∈ out, p.1 ≠ f.name :=
      hdisj f (List.mem_cons_self f rest)
    have hnodup2 : (rest.map Field.name).Nodup := by
      simpa using List.Nodup.of_cons hnodup
    have hnotin : f.name ∉ rest.map Field.name := by
      have := hnodup
      simp only [List.map_cons, List.nodup_cons] at this
      exact this.1
    have hdisj2 : ∀ g ∈ rest, ∀ p ∈ out ++ [(f.name, skelVal derived ft lt f)], p.1 ≠ g.name := by
      intro g hg p hp
      rcases List.mem_append.mp hp with hp1 | hp2
      · exact hdisj g (List.mem_cons_of_mem f hg) p hp1
      · rw [List.mem_singleton] at hp2
        subst hp2
        intro hcon
        have hgmem : g.name ∈ rest.map Field.name := List.mem_map_of_mem Field.name hg
        rw [← hcon] at hgmem
        exact hnotin hgmem
    cases o with
    | some s =>
      have hskel : skelVal derived ft lt f = Val.str s := by
        unfold skelVal
        rw [ho]
      simp only [makeSkeletonGo, ho]
      rw [insertAssoc_append out f.name (Val.str s) hdisj1]
      rw [ih (out ++ [(f.name, Val.str s)]) (fun g hg => hb g (List.mem_cons_of_mem f hg))
        hnodup2 (hskel ▸ hdisj2)]
      simp [hskel, List.append_assoc]
    | none =>
      have hskel : skelVal derived ft lt f = default_value_for_field f := by
        unfold skelVal
        rw [ho]
      simp only [makeSkeletonGo, ho]
      rw [insertAssoc_append out f.name (default_value_for_field f) hdisj1]
      rw [ih (out ++ [(f.name, default_value_for_field f)])
        (fun g hg => hb g (List.mem_cons_of_mem f hg)) hnodup2 (hskel ▸ hdisj2)]
      simp [hskel, List.append_assoc]

theorem insertValAssoc_mem_key (m : List (Val × Val)) (k0 v k : Val)
    (h : (∃ p ∈ m, p.1 = k) ∨ k0 = k) :
    ∃ p ∈ insertValAssoc m k0 v, p.1 = k := by
  induction m with
  | nil =>
    rcases h with ⟨p, hp, _⟩ | rfl
    · cases hp
    · exact ⟨(k0, v), List.mem_singleton.mpr rfl, rfl⟩
  | cons q rest ih =>
    by_cases hq : valBeq q.1 k0
    · have hqk : q.1 = k0 := (valBeq_iff q.1 k0).mp hq
      have : insertValAssoc (q :: rest) k0 v = (k0, v) :: rest := by
        obtain ⟨q1, q2⟩ := q
        simp only [insertValAssoc, if_pos hq]
      rw [this]
      rcases h with ⟨p, hp, hpk⟩ | rfl
      · rcases List.mem_cons.mp hp with rfl | hp2
        · exact ⟨(k0, v), List.mem_cons_self _ _, by rw [← hqk]; exact hpk⟩
        · exact ⟨p, List.mem_cons_of_mem _ hp2, hpk⟩
      · exact ⟨(k0, v), List.mem_cons_self _ _, rfl⟩
    · have : insertValAssoc (q :: rest) k0 v = q :: insertValAssoc rest k0 v := by
        obtain ⟨q1, q2⟩ := q
        simp only [insertValAssoc, if_neg hq]
      rw [this]
      rcases h with ⟨p, hp, hpk⟩ | rfl
      · rcases List.mem_cons.mp hp with rfl | hp2
        · exact ⟨p, List.mem_cons_self _ _, hpk⟩
        · obtain ⟨p2, hp2m, hp2k⟩ := ih (Or.inl ⟨p, hp2, hpk⟩)
          exact ⟨p2, List.mem_cons_of_mem _ hp2m, hp2k⟩
      · obtain ⟨p2, hp2m, hp2k⟩ := ih (Or.inr rfl)
        exact ⟨p2, List.mem_cons_of_mem _ hp2m, hp2k⟩

theorem dictComp_mem_key (keys : List Val) :
    ∀ (m : List (Val × Val)) (k : Val), (k ∈ keys ∨ ∃ p ∈ m, p.1 = k) →
      ∃ p ∈ keys.foldl (fun m k => insertValAssoc m k (Val.str "")) m, p.1 = k := by
  induction keys with
  | nil =>
    intro m k h
    rcases h with h | h
    · cases h
    · exact h
  | cons k1 krest ih =>
    intro m k h
    simp only [List.foldl_cons]
    rcases h with h | h
    · rcases List.mem_cons.mp h with rfl | h2
      · exact ih _ k (Or.inr (insertValAssoc_mem_key m k (Val.str "") k (Or.inr rfl)))
      · exact ih _ k (Or.inl h2)
    · exact ih _ k (Or.inr (insertValAssoc_mem_key m k1 (Val.str "") k (Or.inl h)))

theorem validate_field_clean_string (rm : String → String → Bool) (f : Field) (s : String)
    (hty : f.type = "string") (hne : f.non_empty = false) (hpat : f.pattern = Option.none)
    (hmc : f.max_chars = Option.none) :
    validate_field rm (Val.str s) f = [] := by
  simp only [validate_field, hty, if_pos, hne, hpat, hmc, Bool.false_eq_true, false_and,
    if_false, List.append_nil, List.nil_append]

theorem validate_field_default_clean (rm : String → String → Bool)
    (derived : List (String × String)) (f : Field) (hb : BenignField derived f) :
    validate_field rm (default_value_for_field f) f = [] := by
  obtain ⟨hty, hne, hpat, hnea, hmin, hmne, hmaxc, hmaxi, -⟩ := hb
  rcases hty with h | h | h
  · rw [default_value_for_field, if_pos h]
    simp only [validate_field, h, if_pos, hne, hpat, Bool.false_eq_true, false_and,
      if_false, List.append_nil, List.nil_append]
    cases hmc : f.max_chars with
    | none => rfl
    | some n =>
      have hn := hmaxc n hmc
      have hstrip : pyStrip ("" : String).data = [] := rfl
      rw [hstrip]
      simp only [List.length_nil, Nat.cast_zero]
      rw [if_neg (by omega)]
  · rw [default_value_for_field]
    rw [if_neg (by rw [h]; decide), if_pos h]
    have hs : f.type ≠ "string" := by rw [h]; decide
    simp only [validate_field, hs, if_neg, if_false, h, if_pos]
    have g1 : (match f.min_items with
        | Option.some mn =>
          if (([] : List Val).length : Int) < mn then
            [f.name ++ " requires >= " ++ toString mn ++ " items"] else []
        | Option.none => []) = [] := by
      cases hmi : f.min_items with
      | none => rfl
      | some mn =>
        have := hmin mn hmi
        simp only [List.length_nil, Nat.cast_zero]
        rw [if_neg (by omega)]
    have g2 : (match f.max_items with
        | Option.some mx =>
          if (([] : List Val).length : Int) > mx then
            [f.name ++ " requires <= " ++ toString mx ++ " items"] else []
        | Option.none => []) = [] := by
      cases hmi : f.max_items with
      | none => rfl
      | some mx =>
        have := hmaxi mx hmi
        simp only [List.length_nil, Nat.cast_zero]
        rw [if_neg (by omega)]
    have g3 : (match f.min_non_empty_items with
        | Option.some mne =>
          if ((([] : List Val).countP (fun x =>
              match x with
              | Val.str s => ¬ pyStrip s.data = []
              | _ => false)) : Int) < mne then
            [f.name ++ " requires >= " ++ toString mne ++ " non-empty items"] else []
        | Option.none => []) = [] := by
      cases hmi : f.min_non_empty_items with
      | none => rfl
      | some mne =>
        have := hmne mne hmi
        simp only [List.countP_nil, Nat.cast_zero]
        rw [if_neg (by omega)]
    rw [g1, g2, g3]
    rfl
  · rw [default_value_for_field]
    rw [if_neg (by rw [h]; decide), if_neg (by rw [h]; decide), if_pos h]
    have hs : f.type ≠ "string" := by rw [h]; decide
    have hl : f.type ≠ "list" := by rw [h]; decide
    simp only [validate_field, hs, hl, if_neg, if_false, h, if_pos]
    rw [hnea]
    simp only [Bool.false_eq_true, false_and, if_false, List.append_nil]
    have hfil : (f.dict_keys.filter (fun k =>
        ¬ ((f.dict_keys.foldl (fun m k => insertValAssoc m k (Val.str "")) []).any
              (fun e => valBeq e.1 k)
          ∨ (f.dict_keys.foldl (fun m k => insertValAssoc m k (Val.str "")) []).any
              (fun e => valBeq e.1 (Val.str (pyStr k)))))) = [] := by
      rw [List.filter_eq_nil_iff]
      intro k hk
      obtain ⟨p, hpm, hpk⟩ := dictComp_mem_key f.dict_keys [] k (Or.inl hk)
      simp only [decide_eq_true_eq, Decidable.not_not, not_not]
      exact Or.inl (List.any_eq_true.mpr ⟨p, hpm, (valBeq_iff p.1 k).mpr hpk⟩)
    rw [hfil]
    rfl

theorem pyDictGet_skeleton (derived : List (String × String)) (ft lt : Turn) :
    ∀ (fields : List Field), (fields.map Field.name).Nodup →
      ∀ f ∈ fields,
        pyDictGet (fields.map (fun g => (Val.str g.name, skelVal derived ft lt g))) f.name
          = skelVal derived ft lt f := by
  intro fields
  induction fields with
  | nil => intro _ f hf; cases hf
  | cons g rest ih =>
    intro hnodup f hf
    have hnotin : g.name ∉ rest.map Field.name := by
      simp only [List.map_cons, List.nodup_cons] at hnodup
      exact hnodup.1
    have hnodup2 : (rest.map Field.name).Nodup := by
      simp only [List.map_cons, List.nodup_cons] at hnodup
      exact hnodup.2
    rcases List.mem_cons.mp hf with rfl | hf2
    · simp only [List.map_cons, pyDictGet]
      rw [List.find?_cons_of_pos _ (by simp [valBeq_str_str])]
    · have hne : g.name ≠ f.name := by
        intro hcon
        exact hnotin (hcon ▸ List.mem_map_of_mem Field.name hf2)
      simp only [List.map_cons, pyDictGet]
      rw [List.find?_cons_of_neg _ (by simp [valBeq_str_str, hne])]
      have := ih hnodup2 f hf2
      simpa [pyDictGet] using this

/-- C2 (amended): for every schema whose fields all have a supported
type, no content constraint that can reject a fresh default value, and
pairwise distinct names, with derivations restricted to built-ins on
otherwise-unconstrained string fields, the record produced by
`make_skeleton` yields zero violations when passed back into the
validator against the same schema, for every pair of first/last turns
and every pattern matcher. -/
theorem skeleton_validates_clean (rm : String → String → Bool) (schema : Schema)
    (ft lt : Turn)
    (hnodup : (schema.fields.map Field.name).Nodup)
    (hb : ∀ f ∈ schema.fields, BenignField schema.derived f) :
    ∃ data, make_skeleton schema ft lt = Except.ok data
      ∧ validate_data rm (recordToVal data) schema = [] := by
  refine ⟨schema.fields.map (fun f => (f.name, skelVal schema.derived ft lt f)), ?_, ?_⟩
  · have := makeSkeletonGo_ok schema.derived ft lt schema.fields [] hb hnodup
      (fun f _ p hp => absurd hp (List.not_mem_nil p))
    simpa [make_skeleton] using this
  · have hmapmap : (recordToVal (schema.fields.map
        (fun f => (f.name, skelVal schema.derived ft lt f))))
        = Val.dict (schema.fields.map
            (fun g => (Val.str g.name, skelVal schema.derived ft lt g))) := by
      simp [recordToVal, List.map_map]
    rw [hmapmap]
    simp only [validate_data]
    have hextra : ((schema.fields.map
          (fun g => (Val.str g.name, skelVal schema.derived ft lt g))).map Prod.fst).filter
          (fun k => ¬ (schema.fields.map Field.name).any (fun n => valBeq k (Val.str n))) = [] := by
      rw [List.filter_eq_nil_iff]
      intro k hk
      simp only [List.map_map, List.mem_map] at hk
      obtain ⟨g, hg, rfl⟩ := hk
      simp only [decide_eq_true_eq, not_not, Decidable.not_not]
      exact List.any_eq_true.mpr ⟨g.name, List.mem_map_of_mem Field.name hg,
        (valBeq_iff _ _).mpr rfl⟩
    rw [hextra]
    simp only [List.isEmpty_nil, if_true, List.nil_append]
    rw [List.flatMap_eq_nil_iff]
    intro f hf
    rw [pyDictGet_skeleton schema.derived ft lt schema.fields hnodup f hf]
    obtain ⟨o, ho, hos⟩ := benign_derived_value schema.derived f ft lt (hb f hf)
    cases o with
    | some s =>
      have hskel : skelVal schema.derived ft lt f = Val.str s := by
        unfold skelVal
        rw [ho]
      obtain ⟨hty, hmc⟩ := hos s rfl
      obtain ⟨-, hne, hpat, -, -, -, -, -, -⟩ := hb f hf
      rw [hskel]
      exact validate_field_clean_string rm f s hty hne hpat hmc
    | none =>
      have hskel : skelVal schema.derived ft lt f = default_value_for_field f := by
        unfold skelVal
        rw [ho]
      rw [hskel]
      exact validate_field_default_clean rm schema.derived f (hb f hf)

/-- C2 witness: a concrete benign schema (a derived date field, a
required summary string, a bounded list, a keyed dict) round-trips with
zero violations. -/
theorem skeleton_validates_clean_witness :
    ∃ data, make_skeleton schemaBenign sampleTurn sampleTurn = Except.ok data
      ∧ validate_data (fun _ _ => true) (recordToVal data) schemaBenign = [] :=
  skeleton_validates_clean (fun _ _ => true) schemaBenign sampleTurn sampleTurn
    (by decide)
    (by
      intro f hf
      have hf2 : f = fieldDate ∨ f = fieldSummary ∨ f = fieldTags ∨ f = fieldWho := by
        simpa [schemaBenign] using hf
      rcases hf2 with rfl | rfl | rfl | rfl
      · refine ⟨Or.inl rfl, rfl, rfl, rfl,
          fun n h => Option.noConfusion h, fun n h => Option.noConfusion h,
          fun n h => Option.noConfusion h, fun n h => Option.noConfusion h,
          fun fn h hne => ?_⟩
        have h2 : Option.some ("from_first_turn_date_ymd_slash" : String) = Option.some fn := h
        injection h2 with h3
        subst h3
        exact ⟨Or.inl rfl, rfl, rfl⟩
      · refine ⟨Or.inl rfl, rfl, rfl, rfl,
          fun n h => Option.noConfusion h, fun n h => Option.noConfusion h,
          fun n h => Option.noConfusion h, fun n h => Option.noConfusion h,
          fun fn h hne => ?_⟩
        simp [schemaBenign, assocGet, fieldSummary, List.find?] at h
      · refine ⟨Or.inr (Or.inl rfl), rfl, rfl, rfl,
          fun n h => Option.noConfusion h, fun n h => Option.noConfusion h,
          fun n h => Option.noConfusion h, fun n h => by
            simp only [fieldTags, Option.some.injEq] at h
            omega,
          fun fn h hne => ?_⟩
        simp [schemaBenign, assocGet, fieldTags, List.find?] at h
      · refine ⟨Or.inr (Or.inr rfl), rfl, rfl, rfl,
          fun n h => Option.noConfusion h, fun n h => Option.noConfusion h,
          fun n h => Option.noConfusion h, fun n h => Option.noConfusion h,
          fun fn h hne => ?_⟩
        simp [schemaBenign, assocGet, fieldWho, List.find?] at h)

/-- C2 (counterexample): the claim's own example schema — one field
`summary {type: string, required: true, non_empty: true}` — generates
the skeleton value `""`, and validation of that skeleton reports exactly
the one violation "summary is empty", not zero violations. -/
theorem skeleton_nonempty_counterexample :
    make_skeleton schemaSummaryNE sampleTurn sampleTurn = Except.ok [("summary", Val.str "")]
    ∧ validate_data (fun _ _ => true) (recordToVal [("summary", Val.str "")]) schemaSummaryNE
        = ["summary is empty"] :=
  ⟨rfl, rfl⟩

theorem isPySpace_iff (c : Char) : isPySpace c = true ↔ c ∈ pySpaceChars := by
  simp [isPySpace]

theorem digit_not_pySpace (c : Char) (hd : c.isDigit = true) : isPySpace c = false := by
  by_contra hcon
  rw [Bool.not_eq_false] at hcon
  have hmem := (isPySpace_iff c).mp hcon
  fin_cases hmem <;> exact absurd hd (by decide)

theorem takeWhile_ws_append (ws : List Char) (c : Char) (r : List Char)
    (hws : ∀ x ∈ ws, isPySpace x = true) (hc : isPySpace c = false) :
    (ws ++ c :: r).takeWhile isPySpace = ws
    ∧ (ws ++ c :: r).dropWhile isPySpace = c :: r := by
  induction ws with
  | nil =>
    constructor
    · simp only [List.nil_append]
      rw [List.takeWhile_cons_of_neg (by simp [hc])]
    · simp only [List.nil_append]
      rw [List.dropWhile_cons_of_neg (by simp [hc])]
  | cons a as ih =>
    have ha : isPySpace a = true := hws a (List.mem_cons_self a as)
    have hrest : ∀ x ∈ as, isPySpace x = true :=
      fun x hx => hws x (List.mem_cons_of_mem a hx)
    obtain ⟨iht, ihd⟩ := ih hrest
    constructor
    · simp only [List.cons_append]
      rw [List.takeWhile_cons_of_pos ha, iht]
    · simp only [List.cons_append]
      rw [List.dropWhile_cons_of_pos ha, ihd]

theorem takeWhile_get (p : Char → Bool) (l : List Char) :
    ∀ i, i < (l.takeWhile p).length → ∃ c, l.get? i = some c ∧ p c = true := by
  induction l with
  | nil =>
    intro i h
    simp [List.takeWhile] at h
  | cons a as ih =>
    intro i h
    by_cases hp : p a
    · rw [List.takeWhile_cons_of_pos hp] at h
      cases i with
      | zero => exact ⟨a, rfl, hp⟩
      | succ j => exact ih j (by simpa using h)
    · rw [List.takeWhile_cons_of_neg hp] at h
      simp at h

theorem colonIdx_some (cs : List Char) :
    ∀ j, colonIdx cs = some j → cs.get? j = some ':' := by
  induction cs with
  | nil => intro j h; cases h
  | cons c rest ih =>
    intro j h
    by_cases hc : c = ':'
    · rw [colonIdx, if_pos hc] at h
      injection h with h2
      subst h2
      simp [hc]
    · rw [colonIdx, if_neg hc] at h
      cases hcr : colonIdx rest with
      | none => rw [hcr] at h; cases h
      | some j2 =>
        rw [hcr] at h
        simp only [Option.map_some'] at h
        injection h with h2
        subst h2
        simpa using ih j2 hcr

theorem colonIdx_none (cs : List Char) (h : colonIdx cs = none) :
    ∀ j, cs.get? j ≠ some ':' := by
  induction cs with
  | nil => intro j; simp
  | cons c rest ih =>
    intro j
    by_cases hc : c = ':'
    · rw [colonIdx, if_pos hc] at h
      cases h
    · rw [colonIdx, if_neg hc] at h
      cases hcr : colonIdx rest with
      | none =>
        cases j with
        | zero => simpa using hc
        | succ j2 => simpa using ih hcr j2
      | some j2 => rw [hcr] at h; cases h

theorem matchTail_isSome_iff (ts r : List Char) :
    ((matchTail ts r).isSome = true) ↔ ∃ i, 1 ≤ i ∧ r.get? i = some ':' := by
  cases hc : colonIdx (r.drop ((r.takeWhile isPySpace).length + 1)) with
  | some j =>
    simp only [matchTail, hc, Option.isSome_some, true_iff]
    refine ⟨(r.takeWhile isPySpace).length + 1 + j, by omega, ?_⟩
    have := colonIdx_some _ j hc
    rwa [List.get?_drop] at this
  | none =>
    by_cases hk : 1 ≤ (r.takeWhile isPySpace).length
        ∧ r.get? (r.takeWhile isPySpace).length = some ':'
    · simp only [matchTail, hc]
      rw [if_pos hk]
      simp only [Option.isSome_some, true_iff]
      exact ⟨(r.takeWhile isPySpace).length, hk.1, hk.2⟩
    · simp only [matchTail, hc]
      rw [if_neg hk]
      simp only [Option.isSome_none, Bool.false_eq_true, false_iff]
      rintro ⟨i, hi1, hic⟩
      rcases Nat.lt_trichotomy i (r.takeWhile isPySpace).length with hlt | heq | hgt
      · obtain ⟨c, hgc, hpc⟩ := takeWhile_get isPySpace r i hlt
        rw [hgc] at hic
        injection hic with hceq
        subst hceq
        exact absurd hpc (by decide)
      · exact hk ⟨heq ▸ hi1, heq ▸ hic⟩
      · have hdrop : (r.drop ((r.takeWhile isPySpace).length + 1)).get?
            (i - ((r.takeWhile isPySpace).length + 1)) = some ':' := by
          rw [List.get?_drop]
          rw [show (r.takeWhile isPySpace).length + 1
              + (i - ((r.takeWhile isPySpace).length + 1)) = i by omega]
          exact hic
        exact colonIdx_none _ hc _ hdrop

theorem get?_append_cons (l : List Char) (c : Char) (r : List Char) :
    (l ++ c :: r).get? l.length = some c := by
  induction l with
  | nil => rfl
  | cons a as ih => simpa using ih

theorem get?_append_append_cons (l1 l2 : List Char) (c : Char) (r : List Char) :
    (l1 ++ l2 ++ c :: r).get? ((l1 ++ l2).length) = some c := by
  induction l1 with
  | nil => simpa using get?_append_cons l2 c r
  | cons a as ih => simpa using ih

theorem msgStart_shape_mpr (line : List Char) (hshape : MarkerShapeWs line) :
    (msgStartMatch line).isSome = true := by
  obtain ⟨y3, y4, mo1, mo2, d1, d2, ws1, h1, h2, mi1, mi2, s1, s2, ws2, spk, ws3, content,
    ⟨hd1, hd2, hd3, hd4, hd5, hd6, hd7, hd8, hd9, hd10, hd11, hd12⟩,
    hws1ne, hws1, hws2, hspkne, hws3, hline⟩ := hshape
  subst hline
  have hdw := takeWhile_ws_append ws1 h1
    (h2 :: ':' :: mi1 :: mi2 :: ':' :: s1 :: s2 :: ']' :: (ws2 ++ spk ++ ':' :: (ws3 ++ content)))
    hws1 (digit_not_pySpace h1 hd7)
  simp only [msgStartMatch, hd1, hd2, hd3, hd4, hd5, hd6, Bool.and_self, if_true]
  rw [hdw.1, hdw.2]
  simp only [hd7, hd8, hd9, hd10, hd11, hd12, Bool.and_true]
  rw [if_pos (by
    simp only [decide_eq_true_eq]
    exact Nat.one_le_iff_ne_zero.mpr (by simpa [List.length_eq_zero] using hws1ne))]
  rw [matchTail_isSome_iff]
  refine ⟨(ws2 ++ spk).length, ?_, ?_⟩
  · have hsp : 0 < spk.length := List.length_pos.mpr hspkne
    rw [List.length_append]
    omega
  · exact get?_append_append_cons ws2 spk ':' (ws3 ++ content)

theorem msgStart_shape_mp (line : List Char) (h : (msgStartMatch line).isSome = true) :
    MarkerShapeWs line := by
  unfold msgStartMatch at h
  split at h
  case _ y3 y4 mo1 mo2 d1 d2 rest =>
    cases hdig : (y3.isDigit && y4.isDigit && mo1.isDigit && mo2.isDigit
        && d1.isDigit && d2.isDigit) with
    | false =>
      rw [hdig] at h
      simp at h
    | true =>
      rw [hdig, if_pos rfl] at h
      obtain ⟨hd1, hd2, hd3, hd4, hd5, hd6⟩ : y3.isDigit = true ∧ y4.isDigit = true
          ∧ mo1.isDigit = true ∧ mo2.isDigit = true ∧ d1.isDigit = true ∧ d2.isDigit = true := by
        simpa [Bool.and_eq_true, and_assoc] using hdig
      split at h
      case _ h1 h2 mi1 mi2 s1 s2 r2 heq =>
        cases hc2 : (decide (1 ≤ (rest.takeWhile isPySpace).length) && h1.isDigit && h2.isDigit
            && mi1.isDigit && mi2.isDigit && s1.isDigit && s2.isDigit) with
        | false =>
          rw [hc2] at h
          simp at h
        | true =>
          rw [hc2, if_pos rfl] at h
          obtain ⟨hlen, hd7, hd8, hd9, hd10, hd11, hd12⟩ :
              1 ≤ (rest.takeWhile isPySpace).length ∧ h1.isDigit = true ∧ h2.isDigit = true
                ∧ mi1.isDigit = true ∧ mi2.isDigit = true ∧ s1.isDigit = true
                ∧ s2.isDigit = true := by
            simpa [Bool.and_eq_true, and_assoc, decide_eq_true_eq] using hc2
          obtain ⟨i, hi1, hic⟩ := (matchTail_isSome_iff _ r2).mp h
          have hilt : i < r2.length := by
            rcases List.get?_eq_some.mp hic with ⟨hl, -⟩
            exact hl
          have hdropi : r2.drop i = ':' :: r2.drop (i + 1) := by
            rw [List.drop_eq_getElem_cons hilt]
            have : r2[i] = ':' := by
              have := hic
              rw [List.get?_eq_getElem?] at this
              rcases List.getElem?_eq_some_iff.mp this with ⟨h2', h3'⟩
              exact h3'
            rw [this]
          have hr2 : r2 = r2.take i ++ ':' :: r2.drop (i + 1) := by
            rw [← hdropi, List.take_append_drop]
          refine ⟨y3, y4, mo1, mo2, d1, d2, rest.takeWhile isPySpace,
            h1, h2, mi1, mi2, s1, s2, [], r2.take i, [], r2.drop (i + 1),
            ⟨hd1, hd2, hd3, hd4, hd5, hd6, hd7, hd8, hd9, hd10, hd11, hd12⟩,
            ?_, ?_, ?_, ?_, ?_, ?_⟩
          · intro hcon
            rw [hcon] at hlen
            simp at hlen
          · exact fun c hc => List.mem_takeWhile_imp hc
          · intro c hc
            cases hc
          · have : (r2.take i).length = i := by
              rw [List.length_take]
              omega
            intro hcon
            rw [hcon] at this
            simp at this
            omega
          · intro c hc
            cases hc
          · have hrest : rest = rest.takeWhile isPySpace
                ++ h1 :: h2 :: ':' :: mi1 :: mi2 :: ':' :: s1 :: s2 :: ']' :: r2 := by
              conv_lhs => rw [← List.takeWhile_append_dropWhile (p := isPySpace) (l := rest)]
              rw [heq]
            conv_lhs => rw [hrest, hr2]
            simp
      case _ =>
        simp at h
  case _ =>
    simp at h

theorem splitlinesGo_cons_no_break (c : Char) (rest : List Char) (acc : List Char)
    (hc : isLineBreak c = false) :
    splitlinesGo (c :: rest) acc = splitlinesGo rest (c :: acc) := by
  rw [splitlinesGo.eq_3 acc c rest
    (fun rest2 hcon _ => by subst hcon; exact absurd hc (by decide))]
  rw [if_neg (by simp [hc])]

theorem splitlinesGo_no_break (cs : List Char) :
    (∀ c ∈ cs, isLineBreak c = false) → ∀ acc,
      splitlinesGo cs acc
        = if acc.reverse ++ cs = [] then [] else [acc.reverse ++ cs] := by
  induction cs with
  | nil =>
    intro _ acc
    rw [splitlinesGo.eq_def]
    by_cases ha : acc = []
    · subst ha
      simp
    · simp only [List.append_nil]
      rw [if_neg ha, if_neg (by simpa using ha)]
  | cons c rest ih =>
    intro hnb acc
    rw [splitlinesGo_cons_no_break c rest acc (hnb c (List.mem_cons_self c rest))]
    rw [ih (fun x hx => hnb x (List.mem_cons_of_mem c hx)) (c :: acc)]
    have h1 : (c :: acc).reverse ++ rest = acc.reverse ++ c :: rest := by simp
    rw [h1]

theorem splitlines_no_break (line : List Char) (hnb : ∀ c ∈ line, isLineBreak c = false) :
    splitlines line = if line = [] then [] else [line] := by
  rw [splitlines, splitlinesGo_no_break line hnb []]
  simp

/-- C4 (amended): a line opens a new turn in `parse_turns` iff it
matches the turn-start marker shape with the separator corrected to ONE
OR MORE whitespace characters between the date and the time (the `\s+`
of `MSG_START_RE`): literal `[`, a date whose year begins with 20,
whitespace, a time `HH:MM:SS`, literal `]`, optional whitespace, a
non-empty speaker followed by `:`, optional whitespace, inline
content. -/
theorem turn_start_marker_shape (line : List Char)
    (hnb : ∀ c ∈ line, isLineBreak c = false) :
    (parse_turns (String.mk line)).length = (if (msgStartMatch line).isSome then 1 else 0)
    ∧ ((msgStartMatch line).isSome = true ↔ MarkerShapeWs line) := by
  constructor
  · show (parseTurnsGo (splitlines line) Option.none 0).length = _
    rw [splitlines_no_break line hnb]
    by_cases hl : line = []
    · subst hl
      rw [if_pos rfl]
      have : msgStartMatch [] = Option.none := rfl
      rw [this]
      rfl
    · rw [if_neg hl]
      cases hm : msgStartMatch line with
      | some g =>
        obtain ⟨ts, spk, tail⟩ := g
        simp [parseTurnsGo, hm]
      | none => simp [parseTurnsGo, hm]
  · exact ⟨msgStart_shape_mp line, msgStart_shape_mpr line⟩

/-- C4 witness: the shape equivalence at a concrete marker line. -/
theorem turn_start_marker_shape_witness :
    ((parse_turns (String.mk ("[2024-01-01 00:00:00] A: hi").data)).length
      = (if (msgStartMatch ("[2024-01-01 00:00:00] A: hi").data).isSome then 1 else 0))
    ∧ ((msgStartMatch ("[2024-01-01 00:00:00] A: hi").data).isSome = true
        ↔ MarkerShapeWs ("[2024-01-01 00:00:00] A: hi").data) :=
  turn_start_marker_shape ("[2024-01-01 00:00:00] A: hi").data (by decide)

/-- C4 (counterexample): a line with two spaces between the date and
the time opens a turn (`parse_turns` yields one turn), although it does
not match the claim's shape with exactly one space — the hour digit
demanded right after the single space is a space instead. -/
theorem one_space_marker_counterexample :
    (parse_turns ("[2024-01-01  00:00:00] A: hi")).length = 1
    ∧ ("[2024-01-01  00:00:00] A: hi").data
        = ['[', '2', '0', '2', '4', '-', '0', '1', '-', '0', '1', ' ', ' ',
           '0', '0', ':', '0', '0', ':', '0', '0', ']', ' ', 'A', ':', ' ', 'h', 'i']
    ∧ ¬ MarkerShapeOneSpace ['[', '2', '0', '2', '4', '-', '0', '1', '-', '0', '1', ' ', ' ',
           '0', '0', ':', '0', '0', ':', '0', '0', ']', ' ', 'A', ':', ' ', 'h', 'i'] := by
  refine ⟨by decide, by decide, ?_⟩
  rintro ⟨y3, y4, mo1, mo2, d1, d2, h1, h2, mi1, mi2, s1, s2, ws2, spk, ws3, content,
    ⟨hd1, hd2, hd3, hd4, hd5, hd6, hd7, hd8, hd9, hd10, hd11, hd12⟩,
    hws2, hspkne, hws3, hline⟩
  simp only [List.cons.injEq] at hline
  obtain ⟨-, -, -, -, -, -, -, -, -, -, -, hsp, hline2⟩ := hline
  exact absurd (hline2.1 ▸ hd7) (by decide)
